import Mathlib

/-!
Shallow embedding of `devices/create_driver_table.py` (IgH EtherCAT master
driver-table generator).  Filenames are modelled as `List Char`; directory
trees as a record of optional listings (a `none` listing models a missing or
unreadable directory, where `os.walk`/`next` raises).  The regular expression
`^<pfx>-([\d]+)\.([\d]+)-ethercat\.<ext>$` is embedded as the deterministic
matcher `matchVersion`: for this pattern shape a greedy digit scan never needs
backtracking (after a maximal digit run the next pattern character is a
non-digit), so the span-based matcher agrees with the regex engine.  The
embedding reads the anchor as the true end of the filename and the class
`[\d]` as the ASCII digits: filenames containing newline characters or
non-ASCII digits are outside the modelled alphabet.
-/

namespace DriverTable

/-- Decimal digit character, as produced by Python `str` on `n % 10`. -/
def digitChar (n : Nat) : Char :=
  match n with
  | 0 => '0'
  | 1 => '1'
  | 2 => '2'
  | 3 => '3'
  | 4 => '4'
  | 5 => '5'
  | 6 => '6'
  | 7 => '7'
  | 8 => '8'
  | _ => '9'

/-- Decimal digits of `n`, most significant first; fuel-structured so that it
reduces definitionally.  `natDigitsAux fuel n` is meaningful for `n < fuel`. -/
def natDigitsAux : Nat → Nat → List Char
  | 0, _ => []
  | fuel + 1, n =>
    if n < 10 then [digitChar n]
    else natDigitsAux fuel (n / 10) ++ [digitChar (n % 10)]

/-- Decimal representation of a natural number, as Python `str(n)`. -/
def natDigits (n : Nat) : List Char := natDigitsAux (n + 1) n

/-- Parse a digit list back to a number, as Python `int` on a digit string. -/
def digitsToNat (l : List Char) : Nat :=
  l.foldl (fun a c => 10 * a + (c.toNat - 48)) 0

/-- Match a literal character sequence at the front of a list, returning the
remainder; models matching the literal parts of the compiled regex. -/
def stripLit : List Char → List Char → Option (List Char)
  | [], s => some s
  | _ :: _, [] => none
  | p :: ps, c :: cs => if c = p then stripLit ps cs else none

/-- The fixed literal between the minor version and the extension. -/
def midLit : List Char := String.toList "-ethercat."

/-- Execution of the compiled regex after `<pfx>-(\d+)\.` has been consumed:
the second group `(\d+)` and the trailing literal, on the remainder `r3`. -/
def afterDot (ext r3 : List Char) (maj : Nat) : Option (Nat × Nat) :=
  if (r3.takeWhile Char.isDigit).isEmpty then none
  else if r3.dropWhile Char.isDigit = midLit ++ ext then
    some (maj, digitsToNat (r3.takeWhile Char.isDigit))
  else none

/-- Execution of the compiled regex after the literal head `<pfx>-` has been
consumed: `([\d]+)\.([\d]+)-ethercat\.<ext>$` on the remainder `r1`. -/
def afterVer (ext r1 : List Char) : Option (Nat × Nat) :=
  if (r1.takeWhile Char.isDigit).isEmpty then none
  else
    match r1.dropWhile Char.isDigit with
    | '.' :: r3 => afterDot ext r3 (digitsToNat (r1.takeWhile Char.isDigit))
    | _ => none

/-- Model of `compile_regex(pfx, ext)` applied to one filename: full match of
`^<pfx>-([\d]+)\.([\d]+)-ethercat\.<ext>$`, returning the parsed groups. -/
def matchVersion (pfx ext f : List Char) : Option (Nat × Nat) :=
  (stripLit (pfx ++ ['-']) f).bind (afterVer ext)

/-- Model of `filter_versions(file_list, pfx, ext)`: the set of `(major, minor)` pairs
extracted from the filenames that match the compiled regex. -/
def filter_versions (files : List (List Char)) (pfx ext : List Char) :
    Finset (Nat × Nat) :=
  (files.filterMap (matchVersion pfx ext)).toFinset

/-- A catalog entry `(subdir, driver name, file prefix)`. -/
abbrev Entry := String × String × String

/-- The static `DRIVER_MAP` table of the script. -/
def DRIVER_MAP : List Entry :=
  [ (".", "8139too", "8139too"),
    ("stmmac", "dwmac-intel", "dwmac-intel"),
    (".", "e100", "e100"),
    ("e1000", "e1000", "e1000_main"),
    ("e1000e", "e1000e", "netdev"),
    ("genet", "bcmgenet", "bcmgenet"),
    ("igb", "igb", "igb_main"),
    ("igc", "igc", "igc_main"),
    (".", "r8169", "r8169"),
    ("r8169", "r8169", "r8169_main"),
    ("stmmac", "stmmac-pci", "stmmac_pci") ]

/-- Model of `DRIVERS = sorted(set([x[1] for x in DRIVER_MAP]))`.  Python compares
strings by code points, which is the lexicographic order on the character
lists (`String.le_iff_toList_le`); the sort is phrased on `toList` so that it
is kernel-computable. -/
def DRIVERS : List String :=
  List.insertionSort (fun a b => a.toList ≤ b.toList)
    (DRIVER_MAP.map (fun e => e.2.1)).dedup

/-- A directory tree as seen by the script: the listing of the root devices
directory and the listing of each immediate subdirectory.  `none` models a
directory that does not exist or cannot be listed. -/
structure DirTree where
  rootFiles : Option (List (List Char))
  subFiles : String → Option (List (List Char))

/-- The directory a catalog entry's files are looked up in. -/
def listingOf (tree : DirTree) (sub : String) : Option (List (List Char)) :=
  if sub = "." then tree.rootFiles else tree.subFiles sub

/-- The `driver_table` dictionary built by `get_all_drivers`: its key set and
the set of driver names stored under each key. -/
structure VMap where
  keys : Finset (Nat × Nat)
  val : Nat × Nat → Finset String

/-- The empty dictionary `{}`. -/
def emptyVMap : VMap := ⟨∅, fun _ => ∅⟩

/-- Model of `add_driver(versions, driver)`: for each version, create the entry if
absent and add the driver name to its set. -/
def add_driver (versions : Finset (Nat × Nat)) (driver : String) (t : VMap) :
    VMap :=
  ⟨t.keys ∪ versions,
   fun v => if v ∈ versions then insert driver (t.val v) else t.val v⟩

/-- The loop of `get_all_drivers` over the catalog entries.  `files` is the
root listing fetched up front; a missing subdirectory aborts the whole scan
(the `next(walk(...))` call raises). -/
def scanEntries (tree : DirTree) (files : List (List Char)) :
    List Entry → VMap → Option VMap
  | [], acc => some acc
  | e :: rest, acc =>
    if e.1 = "." then
      scanEntries tree files rest
        (add_driver (filter_versions files e.2.2.toList ['c']) e.2.1 acc)
    else
      match tree.subFiles e.1 with
      | none => none
      | some tmp =>
        scanEntries tree files rest
          (add_driver (filter_versions tmp e.2.2.toList ['c']) e.2.1 acc)

/-- Model of `get_all_drivers(drivers_dir)`: list the root directory (fatal if missing)
and fold the catalog over it. -/
def get_all_drivers (tree : DirTree) : Option VMap :=
  match tree.rootFiles with
  | none => none
  | some files => scanEntries tree files DRIVER_MAP emptyVMap

/-- Lexicographic `≤` on `(major, minor)` pairs: Python tuple comparison. -/
def verLe (a b : Nat × Nat) : Prop :=
  a.1 < b.1 ∨ (a.1 = b.1 ∧ a.2 ≤ b.2)

/-- Strict lexicographic descent between consecutive rows. -/
def verGT (a b : Nat × Nat) : Prop :=
  b.1 < a.1 ∨ (b.1 = a.1 ∧ b.2 < a.2)

instance : DecidableRel verLe := fun a b =>
  inferInstanceAs (Decidable (_ ∨ _))

instance : IsTrans (Nat × Nat) verLe :=
  ⟨by intro a b c hab hbc; rcases hab with h | ⟨h1, h2⟩ <;>
      rcases hbc with h' | ⟨h1', h2'⟩ <;> unfold verLe <;> omega⟩

instance : IsAntisymm (Nat × Nat) verLe :=
  ⟨by intro a b hab hba
      rcases hab with h | ⟨h1, h2⟩ <;> rcases hba with h' | ⟨h1', h2'⟩ <;>
        (try omega) <;> exact Prod.ext h1 (by omega)⟩

instance : IsTotal (Nat × Nat) verLe :=
  ⟨by intro a b; unfold verLe; omega⟩

/-- Model of `sorted(dict_data.keys(), reverse=True)`. -/
def sortedKeysDesc (d : VMap) : List (Nat × Nat) :=
  (Finset.sort verLe d.keys).reverse

/-- Right-pad to width 2 with spaces: the Python format spec on the minor
version component. -/
def padMinor (s : List Char) : List Char :=
  s ++ List.replicate (2 - s.length) ' '

/-- The version label of a data row. -/
def formatVersion (v : Nat × Nat) : String :=
  String.mk (natDigits v.1 ++ '.' :: padMinor (natDigits v.2))

/-- Model of `parse_row(key)`: one presence/absence cell per driver column. -/
def parse_row (d : VMap) (key : Nat × Nat) : List String :=
  DRIVERS.map (fun drv => if drv ∈ d.val key then "X" else "-")

/-- Model of `compute_table(dict_data)`: header row followed by one row per kernel
version in descending order. -/
def compute_table (d : VMap) : List (List String) :=
  ("Kernel" :: DRIVERS) ::
    (sortedKeysDesc d).map (fun v => formatVersion v :: parse_row d v)

/-- Model of `get_max_width(row)`. -/
def get_max_width (row : List String) : Nat :=
  row.foldl (fun ans cell => if cell.length > ans then cell.length else ans) 0

/-- Left-aligned cell content, format spec with fill space and width `w`. -/
def padL (s : List Char) (w : Nat) : List Char :=
  s ++ List.replicate (w - s.length) ' '

/-- Right-aligned cell content. -/
def padR (s : List Char) (w : Nat) : List Char :=
  List.replicate (w - s.length) ' ' ++ s

/-- Centered cell content; CPython's format places the extra fill character of
an odd-length padding on the right. -/
def padC (s : List Char) (w : Nat) : List Char :=
  List.replicate ((w - s.length) / 2) ' ' ++ s ++
    List.replicate ((w - s.length) - (w - s.length) / 2) ' '

/-- One emitted cell of the header's first column. -/
def cellL (w : Nat) (s : String) : List Char :=
  '|' :: ' ' :: (padL s.data w ++ [' '])

/-- One emitted centered cell. -/
def cellC (w : Nat) (s : String) : List Char :=
  '|' :: ' ' :: (padC s.data w ++ [' '])

/-- One emitted right-aligned cell. -/
def cellR (w : Nat) (s : String) : List Char :=
  '|' :: ' ' :: (padR s.data w ++ [' '])

/-- Concatenation of emitted fragments over a list: models the repeated
`ans +=` of the Python loops. -/
def catMap (f : α → List Char) : List α → List Char
  | [] => []
  | a :: l => f a ++ catMap f l

/-- One repeated separator segment `:` ++ dashes ++ `:|`. -/
def sepSeg (w : Nat) : List Char :=
  ':' :: (List.replicate w '-' ++ [':', '|'])

/-- Repetition of a fragment, `n` times. -/
def repCat (n : Nat) (seg : List Char) : List Char :=
  match n with
  | 0 => []
  | k + 1 => seg ++ repCat k seg

/-- The emitted characters of one data row. -/
def rowEmit (w : Nat) (r : List String) : List Char :=
  '\n' :: (cellR w (r.headD "") ++ catMap (cellC w) r.tail ++ ['|'])

/-- The full character stream accumulated by `dump_markdown`: header line,
separator line, then one line per data row. -/
def dumpBody (header : List String) (rows : List (List String)) : List Char :=
  cellL (get_max_width header) (header.headD "") ++
    catMap (cellC (get_max_width header)) header.tail ++
    ('|' :: '\n' :: '|' :: '-' ::
      (List.replicate (get_max_width header) '-' ++ [':', '|'])) ++
    repCat (header.length - 1) (sepSeg (get_max_width header)) ++
    catMap (rowEmit (get_max_width header)) rows

/-- Model of `dump_markdown(table_data)`.  Indexing an empty table or an empty row
raises in Python; that is modelled by `none`. -/
def dump_markdown (t : List (List String)) : Option (List Char) :=
  match t with
  | [] => none
  | header :: rows =>
    match header with
    | [] => none
    | _ :: _ =>
      if rows.all (fun r => !r.isEmpty) then some (dumpBody header rows)
      else none

/-- The declarative reading of the filename pattern
`^<pfx>-(\d+)\.(\d+)-ethercat\.<ext>$`: the filename splits into the literal
parts and two nonempty digit groups that parse to the version pair. -/
def MatchesPattern (pfx ext f : List Char) (ver : Nat × Nat) : Prop :=
  ∃ d1 d2 : List Char, d1 ≠ [] ∧ d2 ≠ [] ∧
    (∀ c ∈ d1, c.isDigit) ∧ (∀ c ∈ d2, c.isDigit) ∧
    f = pfx ++ '-' :: (d1 ++ '.' :: (d2 ++ (midLit ++ ext))) ∧
    ver = (digitsToNat d1, digitsToNat d2)

/-- A catalog entry found a file for version `v` in its directory. -/
def foundV (tree : DirTree) (e : Entry) (v : Nat × Nat) : Prop :=
  ∃ fs, listingOf tree e.1 = some fs ∧
    ∃ f ∈ fs, MatchesPattern e.2.2.toList ['c'] f v

/-- A concrete directory tree: one `e100` driver file in the root directory,
all subdirectories present but empty. -/
def wTreeE100 : DirTree :=
  ⟨some [String.toList "e100-5.15-ethercat.c"], fun _ => some []⟩

/-- The scan result on `wTreeE100`. -/
def wVmE100 : VMap := (get_all_drivers wTreeE100).getD emptyVMap

/-- A concrete directory tree: one `r8169` driver file in the root directory,
all subdirectories present but empty. -/
def wTreeR : DirTree :=
  ⟨some [String.toList "r8169-6.1-ethercat.c"], fun _ => some []⟩

/-- The scan result on `wTreeR`. -/
def wVmR : VMap := (get_all_drivers wTreeR).getD emptyVMap

/-- A concrete directory tree whose subdirectories are all missing. -/
def wTreeBad : DirTree := ⟨some [], fun _ => none⟩

/-- A dictionary with key set `{(6,1), (5,15), (6,0)}` and empty value sets. -/
def exampleVMap : VMap :=
  ⟨[((6 : Nat), (1 : Nat)), (5, 15), (6, 0)].toFinset, fun _ => ∅⟩

/-- Two optional directory listings describe the same directory state: both
missing, or both present with the same files (`os.walk` may enumerate them in
any order between two runs). -/
def ListingEq : Option (List (List Char)) → Option (List (List Char)) → Prop
  | none, none => True
  | some a, some b => a.Perm b
  | _, _ => False

/-- Two directory trees describe the same unchanged file system. -/
def TreeEquiv (t1 t2 : DirTree) : Prop :=
  ListingEq t1.rootFiles t2.rootFiles ∧
    ∀ s, ListingEq (t1.subFiles s) (t2.subFiles s)

lemma digitChar_isDigit (n : Nat) : (digitChar n).isDigit := by
  unfold digitChar
  split <;> decide

lemma digitChar_toNat (n : Nat) (h : n < 10) : (digitChar n).toNat = 48 + n := by
  interval_cases n <;> decide

lemma natDigitsAux_irrel (n : Nat) : ∀ f1 f2 : Nat, n < f1 → n < f2 →
    natDigitsAux f1 n = natDigitsAux f2 n := by
  induction n using Nat.strong_induction_on with
  | _ n ih =>
    intro f1 f2 h1 h2
    match f1, f2 with
    | k1 + 1, k2 + 1 =>
      by_cases h10 : n < 10
      · unfold natDigitsAux
        rw [if_pos h10, if_pos h10]
      · have hlt : n / 10 < n := Nat.div_lt_self (by omega) (by omega)
        unfold natDigitsAux
        rw [if_neg h10, if_neg h10,
          ih (n / 10) hlt k1 k2 (by omega) (by omega)]

lemma natDigits_step (n : Nat) (h : ¬ n < 10) :
    natDigits n = natDigits (n / 10) ++ [digitChar (n % 10)] := by
  have hlt : n / 10 < n := Nat.div_lt_self (by omega) (by omega)
  have h1 : natDigitsAux (n + 1) n =
      if n < 10 then [digitChar n]
      else natDigitsAux n (n / 10) ++ [digitChar (n % 10)] := rfl
  show natDigitsAux (n + 1) n = natDigitsAux (n / 10 + 1) (n / 10) ++ _
  rw [h1, if_neg h,
    natDigitsAux_irrel (n / 10) n (n / 10 + 1) (by omega) (by omega)]

lemma natDigits_small (n : Nat) (h : n < 10) : natDigits n = [digitChar n] := by
  unfold natDigits natDigitsAux
  rw [if_pos h]

lemma natDigits_ne_nil (n : Nat) : natDigits n ≠ [] := by
  by_cases h : n < 10
  · rw [natDigits_small n h]; simp
  · rw [natDigits_step n h]; simp

lemma natDigits_isDigit (n : Nat) : ∀ c ∈ natDigits n, c.isDigit := by
  induction n using Nat.strong_induction_on with
  | _ n ih =>
    by_cases h : n < 10
    · rw [natDigits_small n h]
      intro c hc
      rw [List.mem_singleton] at hc
      rw [hc]; exact digitChar_isDigit n
    · rw [natDigits_step n h]
      intro c hc
      rcases List.mem_append.mp hc with hc | hc
      · exact ih (n / 10) (Nat.div_lt_self (by omega) (by omega)) c hc
      · rw [List.mem_singleton] at hc
        rw [hc]; exact digitChar_isDigit _

lemma digitsToNat_append_digit (l : List Char) (c : Char) :
    digitsToNat (l ++ [c]) = 10 * digitsToNat l + (c.toNat - 48) := by
  unfold digitsToNat
  rw [List.foldl_append]
  rfl

lemma digitsToNat_natDigits (n : Nat) : digitsToNat (natDigits n) = n := by
  induction n using Nat.strong_induction_on with
  | _ n ih =>
    by_cases h : n < 10
    · rw [natDigits_small n h]
      show 10 * 0 + ((digitChar n).toNat - 48) = n
      rw [digitChar_toNat n h]; omega
    · rw [natDigits_step n h, digitsToNat_append_digit,
        ih (n / 10) (Nat.div_lt_self (by omega) (by omega)),
        digitChar_toNat (n % 10) (Nat.mod_lt n (by omega))]
      omega

lemma natDigits_injective : Function.Injective natDigits := by
  intro a b h
  have := digitsToNat_natDigits a
  rw [h, digitsToNat_natDigits] at this
  omega

lemma dot_not_mem_natDigits (n : Nat) : '.' ∉ natDigits n := by
  intro h
  have := natDigits_isDigit n '.' h
  simp [Char.isDigit] at this

lemma stripLit_eq_some (p : List Char) : ∀ s r : List Char,
    stripLit p s = some r ↔ s = p ++ r := by
  induction p with
  | nil =>
    intro s r
    constructor
    · intro h
      cases h
      rfl
    · intro h
      rw [h]
      rfl
  | cons a ps ih =>
    intro s r
    cases s with
    | nil =>
      constructor
      · intro h; cases h
      · intro h; cases h
    | cons c cs =>
      unfold stripLit
      by_cases hca : c = a
      · rw [if_pos hca, ih]
        subst hca
        simp
      · rw [if_neg hca]
        constructor
        · intro h; cases h
        · intro h
          rw [List.cons_append] at h
          exact absurd (List.head_eq_of_cons_eq h) hca

lemma takeWhile_all_append (p : Char → Bool) (l r : List Char) (x : Char)
    (h : ∀ c ∈ l, p c = true) (hx : p x = false) :
    (l ++ x :: r).takeWhile p = l := by
  induction l with
  | nil => simp [List.takeWhile, hx]
  | cons a t ih =>
    have ha : p a = true := h a (by simp)
    have ht : ∀ c ∈ t, p c = true := fun c hc => h c (by simp [hc])
    simp [List.takeWhile_cons, ha, ih ht]

lemma dropWhile_all_append (p : Char → Bool) (l r : List Char) (x : Char)
    (h : ∀ c ∈ l, p c = true) (hx : p x = false) :
    (l ++ x :: r).dropWhile p = x :: r := by
  induction l with
  | nil => simp [List.dropWhile, hx]
  | cons a t ih =>
    have ha : p a = true := h a (by simp)
    have ht : ∀ c ∈ t, p c = true := fun c hc => h c (by simp [hc])
    simp [List.dropWhile_cons, ha, ih ht]

lemma afterVer_eq_some (ext r1 : List Char) (ver : Nat × Nat) :
    afterVer ext r1 = some ver ↔
      ∃ d1 d2 : List Char, d1 ≠ [] ∧ d2 ≠ [] ∧
        (∀ c ∈ d1, c.isDigit) ∧ (∀ c ∈ d2, c.isDigit) ∧
        r1 = d1 ++ '.' :: (d2 ++ (midLit ++ ext)) ∧
        ver = (digitsToNat d1, digitsToNat d2) := by
  constructor
  · intro h
    unfold afterVer at h
    split at h
    · cases h
    · rename_i hne
      split at h
      · rename_i r3 hr2
        unfold afterDot at h
        split at h
        · cases h
        · rename_i hne2
          split at h
          · rename_i hlit
            cases h
            refine ⟨r1.takeWhile Char.isDigit, r3.takeWhile Char.isDigit,
              ?_, ?_, ?_, ?_, ?_, rfl⟩
            · intro hc
              rw [hc] at hne
              exact hne rfl
            · intro hc
              rw [hc] at hne2
              exact hne2 rfl
            · intro c hc
              exact List.mem_takeWhile_imp hc
            · intro c hc
              exact List.mem_takeWhile_imp hc
            · conv_lhs => rw [← List.takeWhile_append_dropWhile
                (p := Char.isDigit) (l := r1)]
              rw [hr2]
              congr 1
              congr 1
              conv_lhs => rw [← List.takeWhile_append_dropWhile
                (p := Char.isDigit) (l := r3)]
              rw [hlit]
          · cases h
      · cases h
  · rintro ⟨d1, d2, hne1, hne2, hdig1, hdig2, heq, hver⟩
    subst heq
    subst hver
    have hmid : midLit ++ ext = '-' :: (String.toList "ethercat." ++ ext) := rfl
    have hdot : ('.' : Char).isDigit = false := by decide
    have hdash : ('-' : Char).isDigit = false := by decide
    have ht1 : (d1 ++ '.' :: (d2 ++ (midLit ++ ext))).takeWhile Char.isDigit
        = d1 := takeWhile_all_append _ _ _ _ (by intro c hc; exact hdig1 c hc)
        hdot
    have hd1 : (d1 ++ '.' :: (d2 ++ (midLit ++ ext))).dropWhile Char.isDigit
        = '.' :: (d2 ++ (midLit ++ ext)) :=
      dropWhile_all_append _ _ _ _ (by intro c hc; exact hdig1 c hc) hdot
    have ht2 : (d2 ++ (midLit ++ ext)).takeWhile Char.isDigit = d2 := by
      rw [hmid]
      exact takeWhile_all_append _ _ _ _ (by intro c hc; exact hdig2 c hc)
        hdash
    have hd2 : (d2 ++ (midLit ++ ext)).dropWhile Char.isDigit
        = midLit ++ ext := by
      rw [hmid]
      exact dropWhile_all_append _ _ _ _ (by intro c hc; exact hdig2 c hc)
        hdash
    unfold afterVer
    rw [ht1, hd1, if_neg (by simp [List.isEmpty_iff, hne1])]
    show afterDot ext (d2 ++ (midLit ++ ext)) (digitsToNat d1) = _
    unfold afterDot
    rw [ht2, hd2, if_neg (by simp [List.isEmpty_iff, hne2]), if_pos rfl]

lemma matchVersion_eq_some (pfx ext f : List Char) (ver : Nat × Nat) :
    matchVersion pfx ext f = some ver ↔ MatchesPattern pfx ext f ver := by
  unfold matchVersion MatchesPattern
  rw [Option.bind_eq_some]
  constructor
  · rintro ⟨r1, hs, ha⟩
    rw [stripLit_eq_some] at hs
    rw [afterVer_eq_some] at ha
    obtain ⟨d1, d2, h1, h2, h3, h4, h5, h6⟩ := ha
    refine ⟨d1, d2, h1, h2, h3, h4, ?_, h6⟩
    rw [hs, h5, List.append_assoc]
    rfl
  · rintro ⟨d1, d2, h1, h2, h3, h4, h5, h6⟩
    refine ⟨d1 ++ '.' :: (d2 ++ (midLit ++ ext)), ?_, ?_⟩
    · rw [stripLit_eq_some, h5, List.append_assoc]
      rfl
    · rw [afterVer_eq_some]
      exact ⟨d1, d2, h1, h2, h3, h4, rfl, h6⟩

lemma mem_filter_versions (files : List (List Char)) (pfx ext : List Char)
    (v : Nat × Nat) :
    v ∈ filter_versions files pfx ext ↔
      ∃ f ∈ files, MatchesPattern pfx ext f v := by
  unfold filter_versions
  rw [List.mem_toFinset, List.mem_filterMap]
  constructor
  · rintro ⟨f, hf, hm⟩
    exact ⟨f, hf, (matchVersion_eq_some pfx ext f v).mp hm⟩
  · rintro ⟨f, hf, hm⟩
    exact ⟨f, hf, (matchVersion_eq_some pfx ext f v).mpr hm⟩

/-- C4: `filter_versions` returns exactly the set of `(major, minor)` pairs
for which some filename in the list splits as
`<pfx>-<digits>.<digits>-ethercat.<ext>` with both ends anchored; any other
filename contributes nothing. -/
theorem c4_filter_versions_exact (files : List (List Char))
    (pfx ext : List Char) (M m : Nat) :
    (M, m) ∈ filter_versions files pfx ext ↔
      ∃ f ∈ files, MatchesPattern pfx ext f (M, m) :=
  mem_filter_versions files pfx ext (M, m)

lemma mem_add_driver_keys (V : Finset (Nat × Nat)) (nm : String) (acc : VMap)
    (v : Nat × Nat) :
    v ∈ (add_driver V nm acc).keys ↔ v ∈ acc.keys ∨ v ∈ V := by
  show v ∈ acc.keys ∪ V ↔ _
  exact Finset.mem_union

lemma mem_add_driver_val (V : Finset (Nat × Nat)) (nm d : String) (acc : VMap)
    (v : Nat × Nat) :
    d ∈ (add_driver V nm acc).val v ↔
      d ∈ acc.val v ∨ (nm = d ∧ v ∈ V) := by
  show d ∈ (if v ∈ V then insert nm (acc.val v) else acc.val v) ↔ _
  by_cases hv : v ∈ V
  · rw [if_pos hv, Finset.mem_insert]
    constructor
    · rintro (h | h)
      · exact Or.inr ⟨h.symm, hv⟩
      · exact Or.inl h
    · rintro (h | ⟨h, _⟩)
      · exact Or.inr h
      · exact Or.inl h.symm
  · rw [if_neg hv]
    constructor
    · exact Or.inl
    · rintro (h | ⟨_, h⟩)
      · exact h
      · exact absurd h hv

lemma foundV_iff_filter (tree : DirTree) (e : Entry) (v : Nat × Nat)
    (fs : List (List Char)) (hls : listingOf tree e.1 = some fs) :
    foundV tree e v ↔ v ∈ filter_versions fs e.2.2.toList ['c'] := by
  unfold foundV
  rw [mem_filter_versions]
  constructor
  · rintro ⟨fs', h1, h2⟩
    rw [hls] at h1
    cases h1
    exact h2
  · intro h
    exact ⟨fs, hls, h⟩

lemma scanEntries_spec (tree : DirTree) (files : List (List Char))
    (hroot : tree.rootFiles = some files) :
    ∀ (l : List Entry) (acc vm : VMap),
      scanEntries tree files l acc = some vm → ∀ v : Nat × Nat,
        (v ∈ vm.keys ↔ v ∈ acc.keys ∨ ∃ e ∈ l, foundV tree e v) ∧
        ∀ d : String, d ∈ vm.val v ↔
          d ∈ acc.val v ∨ ∃ e ∈ l, e.2.1 = d ∧ foundV tree e v := by
  intro l
  induction l with
  | nil =>
    intro acc vm h v
    cases h
    simp
  | cons e rest ih =>
    intro acc vm h v
    unfold scanEntries at h
    split at h
    · rename_i he
      have hls : listingOf tree e.1 = some files := by
        unfold listingOf
        rw [if_pos he, hroot]
      have hfv : ∀ w, foundV tree e w ↔
          w ∈ filter_versions files e.2.2.toList ['c'] :=
        fun w => foundV_iff_filter tree e w files hls
      obtain ⟨hk, hv⟩ := ih _ vm h v
      constructor
      · rw [hk, mem_add_driver_keys]
        simp only [List.mem_cons]
        constructor
        · rintro ((h1 | h1) | ⟨e', he', h2⟩)
          · exact Or.inl h1
          · exact Or.inr ⟨e, Or.inl rfl, (hfv v).mpr h1⟩
          · exact Or.inr ⟨e', Or.inr he', h2⟩
        · rintro (h1 | ⟨e', (he' | he'), h2⟩)
          · exact Or.inl (Or.inl h1)
          · subst he'
            exact Or.inl (Or.inr ((hfv v).mp h2))
          · exact Or.inr ⟨e', he', h2⟩
      · intro d
        rw [hv d, mem_add_driver_val]
        simp only [List.mem_cons]
        constructor
        · rintro ((h1 | ⟨h1, h2⟩) | ⟨e', he', h2, h3⟩)
          · exact Or.inl h1
          · exact Or.inr ⟨e, Or.inl rfl, h1, (hfv v).mpr h2⟩
          · exact Or.inr ⟨e', Or.inr he', h2, h3⟩
        · rintro (h1 | ⟨e', (he' | he'), h2, h3⟩)
          · exact Or.inl (Or.inl h1)
          · subst he'
            exact Or.inl (Or.inr ⟨h2, (hfv v).mp h3⟩)
          · exact Or.inr ⟨e', he', h2, h3⟩
    · rename_i he
      split at h
      · cases h
      · rename_i tmp htmp
        have hls : listingOf tree e.1 = some tmp := by
          unfold listingOf
          rw [if_neg he, htmp]
        have hfv : ∀ w, foundV tree e w ↔
            w ∈ filter_versions tmp e.2.2.toList ['c'] :=
          fun w => foundV_iff_filter tree e w tmp hls
        obtain ⟨hk, hv⟩ := ih _ vm h v
        constructor
        · rw [hk, mem_add_driver_keys]
          simp only [List.mem_cons]
          constructor
          · rintro ((h1 | h1) | ⟨e', he', h2⟩)
            · exact Or.inl h1
            · exact Or.inr ⟨e, Or.inl rfl, (hfv v).mpr h1⟩
            · exact Or.inr ⟨e', Or.inr he', h2⟩
          · rintro (h1 | ⟨e', (he' | he'), h2⟩)
            · exact Or.inl (Or.inl h1)
            · subst he'
              exact Or.inl (Or.inr ((hfv v).mp h2))
            · exact Or.inr ⟨e', he', h2⟩
        · intro d
          rw [hv d, mem_add_driver_val]
          simp only [List.mem_cons]
          constructor
          · rintro ((h1 | ⟨h1, h2⟩) | ⟨e', he', h2, h3⟩)
            · exact Or.inl h1
            · exact Or.inr ⟨e, Or.inl rfl, h1, (hfv v).mpr h2⟩
            · exact Or.inr ⟨e', Or.inr he', h2, h3⟩
          · rintro (h1 | ⟨e', (he' | he'), h2, h3⟩)
            · exact Or.inl (Or.inl h1)
            · subst he'
              exact Or.inl (Or.inr ⟨h2, (hfv v).mp h3⟩)
            · exact Or.inr ⟨e', he', h2, h3⟩

lemma get_all_drivers_spec (tree : DirTree) (vm : VMap)
    (h : get_all_drivers tree = some vm) (v : Nat × Nat) :
    (v ∈ vm.keys ↔ ∃ e ∈ DRIVER_MAP, foundV tree e v) ∧
    ∀ d : String, d ∈ vm.val v ↔
      ∃ e ∈ DRIVER_MAP, e.2.1 = d ∧ foundV tree e v := by
  unfold get_all_drivers at h
  split at h
  · cases h
  · rename_i files hroot
    obtain ⟨hk, hv⟩ := scanEntries_spec tree files hroot DRIVER_MAP
      emptyVMap vm h v
    constructor
    · rw [hk]
      show v ∈ (∅ : Finset (Nat × Nat)) ∨ _ ↔ _
      simp
    · intro d
      rw [hv d]
      show d ∈ (∅ : Finset String) ∨ _ ↔ _
      simp

lemma getD_map_lt (f : String → String) (l : List String) (i : Nat)
    (h : i < l.length) : (l.map f).getD i "" = f (l.getD i "") := by
  rw [List.getD_eq_getElem?_getD, List.getElem?_map, List.getD_eq_getElem?_getD,
    List.getElem?_eq_getElem h]
  rfl

lemma parse_row_cell (d : VMap) (v : Nat × Nat) (i : Nat)
    (hi : i < DRIVERS.length) :
    (parse_row d v).getD i "" =
      if DRIVERS.getD i "" ∈ d.val v then "X" else "-" :=
  getD_map_lt _ DRIVERS i hi

lemma row_mem_compute_table (d : VMap) (v : Nat × Nat) (hv : v ∈ d.keys) :
    (formatVersion v :: parse_row d v) ∈ compute_table d := by
  unfold compute_table
  refine List.mem_cons_of_mem _ (List.mem_map.mpr ⟨v, ?_, rfl⟩)
  unfold sortedKeysDesc
  rw [List.mem_reverse, Finset.mem_sort]
  exact hv

/-- C1: after a successful scan, a version is a table key exactly when some
catalog entry found a matching file; the data row for that key is in the
computed table; and its cell in column `i` is `"X"` exactly when some catalog
entry carrying the column's driver name found, in its listed directory, a
file fully matching `<pfx>-<major>.<minor>-ethercat.c`; otherwise it is
`"-"`. -/
theorem c1_cell_iff_found (tree : DirTree) (vm : VMap)
    (h : get_all_drivers tree = some vm) (M m i : Nat)
    (hi : i < DRIVERS.length) :
    ((M, m) ∈ vm.keys ↔ ∃ e ∈ DRIVER_MAP, foundV tree e (M, m)) ∧
    ((M, m) ∈ vm.keys →
      (formatVersion (M, m) :: parse_row vm (M, m)) ∈ compute_table vm) ∧
    ((parse_row vm (M, m)).getD i "" = "X" ↔
      ∃ e ∈ DRIVER_MAP, e.2.1 = DRIVERS.getD i "" ∧ foundV tree e (M, m)) ∧
    ((parse_row vm (M, m)).getD i "" = "X" ∨
      (parse_row vm (M, m)).getD i "" = "-") := by
  obtain ⟨hk, hv⟩ := get_all_drivers_spec tree vm h (M, m)
  refine ⟨hk, row_mem_compute_table vm (M, m), ?_, ?_⟩
  · rw [parse_row_cell vm (M, m) i hi]
    by_cases hmem : DRIVERS.getD i "" ∈ vm.val (M, m)
    · rw [if_pos hmem]
      simp only [true_iff, eq_self_iff_true]
      exact (hv _).mp hmem
    · rw [if_neg hmem]
      constructor
      · intro hcontra
        exact absurd hcontra (by decide)
      · intro hex
        exact absurd ((hv _).mpr hex) hmem
  · rw [parse_row_cell vm (M, m) i hi]
    by_cases hmem : DRIVERS.getD i "" ∈ vm.val (M, m)
    · rw [if_pos hmem]
      exact Or.inl rfl
    · rw [if_neg hmem]
      exact Or.inr rfl

/-- Witness for C1 at a concrete tree: one root file
`e100-5.15-ethercat.c`, version `(5, 15)`, column 3 (driver `e100`). -/
theorem c1_witness :
    (((5, 15) : Nat × Nat) ∈ wVmE100.keys ↔
      ∃ e ∈ DRIVER_MAP, foundV wTreeE100 e (5, 15)) ∧
    (((5, 15) : Nat × Nat) ∈ wVmE100.keys →
      (formatVersion (5, 15) :: parse_row wVmE100 (5, 15)) ∈
        compute_table wVmE100) ∧
    ((parse_row wVmE100 (5, 15)).getD 3 "" = "X" ↔
      ∃ e ∈ DRIVER_MAP, e.2.1 = DRIVERS.getD 3 "" ∧
        foundV wTreeE100 e (5, 15)) ∧
    ((parse_row wVmE100 (5, 15)).getD 3 "" = "X" ∨
      (parse_row wVmE100 (5, 15)).getD 3 "" = "-") :=
  c1_cell_iff_found wTreeE100 wVmE100 rfl 5 15 3 (by decide)

lemma scanEntries_none (tree : DirTree) (files : List (List Char)) :
    ∀ (l : List Entry) (acc : VMap),
      (∃ e ∈ l, e.1 ≠ "." ∧ tree.subFiles e.1 = none) →
      scanEntries tree files l acc = none := by
  intro l
  induction l with
  | nil =>
    rintro acc ⟨e, he, _⟩
    cases he
  | cons e rest ih =>
    rintro acc ⟨e', he', hdot, hnone⟩
    unfold scanEntries
    split
    · rename_i he
      rcases List.mem_cons.mp he' with heq | hmem
      · subst heq
        exact absurd he hdot
      · exact ih _ ⟨e', hmem, hdot, hnone⟩
    · rename_i he
      split
      · rfl
      · rename_i tmp htmp
        rcases List.mem_cons.mp he' with heq | hmem
        · subst heq
          rw [hnone] at htmp
          cases htmp
        · exact ih _ ⟨e', hmem, hdot, hnone⟩

/-- C8: if the root directory, or the subdirectory of any catalog entry whose
subdirectory is not `"."`, cannot be listed, the scan produces no dictionary
at all — there is no partial result. -/
theorem c8_missing_dir_fatal (tree : DirTree)
    (h : tree.rootFiles = none ∨
      ∃ e ∈ DRIVER_MAP, e.1 ≠ "." ∧ tree.subFiles e.1 = none) :
    get_all_drivers tree = none := by
  unfold get_all_drivers
  rcases h with h | h
  · rw [h]
  · cases hr : tree.rootFiles with
    | none => rfl
    | some files => exact scanEntries_none tree files DRIVER_MAP emptyVMap h

/-- Witness for C8: a tree whose subdirectories are all missing. -/
theorem c8_witness : get_all_drivers wTreeBad = none :=
  c8_missing_dir_fatal wTreeBad
    (Or.inr ⟨("stmmac", "dwmac-intel", "dwmac-intel"), by decide, by decide,
      rfl⟩)

/-- C10: the catalog has exactly one `r8169` column but two entries named
`r8169` (root with file stem `r8169`, subdirectory `r8169` with file stem
`r8169_main`), and the cell set of the `r8169` column is the union of the
versions found by the two entries. -/
theorem c10_r8169_union (tree : DirTree) (vm : VMap)
    (h : get_all_drivers tree = some vm) (v : Nat × Nat) :
    DRIVERS.count "r8169" = 1 ∧
    (".", "r8169", "r8169") ∈ DRIVER_MAP ∧
    ("r8169", "r8169", "r8169_main") ∈ DRIVER_MAP ∧
    ("r8169" ∈ vm.val v ↔
      (∃ fs, tree.rootFiles = some fs ∧
        ∃ f ∈ fs, MatchesPattern (String.toList "r8169") ['c'] f v) ∨
      (∃ fs, tree.subFiles "r8169" = some fs ∧
        ∃ f ∈ fs, MatchesPattern (String.toList "r8169_main") ['c'] f v)) := by
  refine ⟨by decide, by decide, by decide, ?_⟩
  rw [(get_all_drivers_spec tree vm h v).2 "r8169"]
  constructor
  · rintro ⟨e, he, hname, fs, hls, hf⟩
    fin_cases he <;> simp only at hname <;>
      first
      | (exact absurd hname (by decide))
      | (rw [show listingOf tree "." = tree.rootFiles from rfl] at hls
         exact Or.inl ⟨fs, hls, hf⟩)
      | (rw [show listingOf tree "r8169" = tree.subFiles "r8169" from rfl]
            at hls
         exact Or.inr ⟨fs, hls, hf⟩)
  · rintro (⟨fs, hfs, hf⟩ | ⟨fs, hfs, hf⟩)
    · exact ⟨(".", "r8169", "r8169"), by decide, rfl, fs, hfs, hf⟩
    · exact ⟨("r8169", "r8169", "r8169_main"), by decide, rfl, fs, hfs, hf⟩

/-- Witness for C10 at a concrete tree with one root `r8169` file. -/
theorem c10_witness :
    DRIVERS.count "r8169" = 1 ∧
    (".", "r8169", "r8169") ∈ DRIVER_MAP ∧
    ("r8169", "r8169", "r8169_main") ∈ DRIVER_MAP ∧
    ("r8169" ∈ wVmR.val (6, 1) ↔
      (∃ fs, wTreeR.rootFiles = some fs ∧
        ∃ f ∈ fs, MatchesPattern (String.toList "r8169") ['c'] f (6, 1)) ∨
      (∃ fs, wTreeR.subFiles "r8169" = some fs ∧
        ∃ f ∈ fs, MatchesPattern (String.toList "r8169_main") ['c'] f
          (6, 1))) :=
  c10_r8169_union wTreeR wVmR rfl (6, 1)

/-- C2: every computed table starts with the header `"Kernel"` followed by
the catalog's driver names, deduplicated and strictly ascending — the same
header whatever the scan found. -/
theorem c2_header_columns (d : VMap) :
    (compute_table d).head? = some ("Kernel" :: DRIVERS) ∧
    DRIVERS.Sorted (fun a b : String => a < b) ∧
    DRIVERS.toFinset = (DRIVER_MAP.map (fun e => e.2.1)).toFinset := by
  refine ⟨rfl, ?_, by decide⟩
  have h : DRIVERS.Sorted (fun a b : String => a.toList < b.toList) := by
    decide
  exact h.imp (fun hab => String.lt_iff_toList_lt.mpr hab)

lemma sortedKeysDesc_pairwise (d : VMap) :
    List.Pairwise verGT (sortedKeysDesc d) := by
  have hs : List.Pairwise verLe (Finset.sort verLe d.keys) :=
    Finset.sort_sorted verLe d.keys
  have hn : (Finset.sort verLe d.keys).Nodup := Finset.sort_nodup verLe d.keys
  have h1 : List.Pairwise (fun a b => verLe b a) (sortedKeysDesc d) :=
    List.pairwise_reverse.mpr hs
  have h2 : List.Pairwise (fun a b : Nat × Nat => a ≠ b) (sortedKeysDesc d) :=
    List.nodup_reverse.mpr hn
  refine (h1.and h2).imp ?_
  rintro a b ⟨hle, hne⟩
  rcases hle with h | ⟨h1', h2'⟩
  · exact Or.inl h
  · refine Or.inr ⟨h1', ?_⟩
    rcases Nat.lt_or_ge b.2 a.2 with h3 | h3
    · exact h3
    · exact absurd (Prod.ext h1'.symm (by omega) : a = b) hne

lemma sort_keys_eq (d : VMap) (l : List (Nat × Nat))
    (hs : List.Pairwise verLe l) (hn : l.Nodup)
    (hm : ∀ v, v ∈ l ↔ v ∈ d.keys) :
    Finset.sort verLe d.keys = l := by
  refine List.eq_of_perm_of_sorted
    (List.perm_of_nodup_nodup_toFinset_eq (Finset.sort_nodup verLe d.keys)
      hn ?_)
    (Finset.sort_sorted verLe d.keys) hs
  ext v
  rw [List.mem_toFinset, List.mem_toFinset, Finset.mem_sort, hm]

lemma exampleVMap_sorted :
    sortedKeysDesc exampleVMap = [(6, 1), (6, 0), (5, 15)] := by
  have h : Finset.sort verLe exampleVMap.keys = [(5, 15), (6, 0), (6, 1)] := by
    refine sort_keys_eq exampleVMap _ (by decide) (by decide) ?_
    intro v
    show _ ↔ v ∈ ([((6 : Nat), (1 : Nat)), (5, 15), (6, 0)]).toFinset
    rw [List.mem_toFinset]
    simp only [List.mem_cons, List.not_mem_nil, or_false]
    constructor
    · rintro (h | h | h) <;> subst h <;> tauto
    · rintro (h | h | h) <;> subst h <;> tauto
  unfold sortedKeysDesc
  rw [h]
  rfl

/-- C3: the data rows of every computed table follow the key list in strictly
descending `(major, minor)` lexicographic order, and the keys
`{(6,1), (5,15), (6,0)}` render in the order `6.1`, `6.0`, `5.15`. -/
theorem c3_rows_descending (d : VMap) :
    List.Pairwise verGT (sortedKeysDesc d) ∧
    compute_table d = ("Kernel" :: DRIVERS) ::
      (sortedKeysDesc d).map (fun v => formatVersion v :: parse_row d v) ∧
    (compute_table exampleVMap).map (fun r => r.headD "") =
      ["Kernel", "6.1 ", "6.0 ", "5.15"] := by
  refine ⟨sortedKeysDesc_pairwise d, rfl, ?_⟩
  have hcomp : ((fun r => List.headD r "") ∘
      fun v => formatVersion v :: parse_row exampleVMap v) =
      fun v => formatVersion v := rfl
  show "Kernel" :: ((sortedKeysDesc exampleVMap).map
      (fun v => formatVersion v :: parse_row exampleVMap v)).map
      (fun r => r.headD "") = _
  rw [List.map_map, hcomp, exampleVMap_sorted]
  decide

/-- C5: a data row's version label is the decimal major version, a dot, and
the decimal minor version right-padded with spaces to at least two
characters; `(6,1)` yields `"6.1 "` and `(5,15)` yields `"5.15"`. -/
theorem c5_version_label (M m : Nat) :
    (∃ pad, (formatVersion (M, m)).data =
        natDigits M ++ '.' :: (natDigits m ++ pad) ∧
      (∀ c ∈ pad, c = ' ') ∧
      (natDigits m ++ pad).length = max 2 (natDigits m).length) ∧
    formatVersion (6, 1) = "6.1 " ∧ formatVersion (5, 15) = "5.15" := by
  refine ⟨⟨List.replicate (2 - (natDigits m).length) ' ', rfl, ?_, ?_⟩,
    by decide, by decide⟩
  · intro c hc
    exact List.eq_of_mem_replicate hc
  · have h1 : 1 ≤ (natDigits m).length := by
      cases hd : natDigits m with
      | nil => exact absurd hd (natDigits_ne_nil m)
      | cons a t => simp
    simp only [List.length_append, List.length_replicate]
    omega

lemma append_cons_dot_inj (l1 : List Char) : ∀ (l2 r1 r2 : List Char),
    '.' ∉ l1 → '.' ∉ l2 → l1 ++ '.' :: r1 = l2 ++ '.' :: r2 →
    l1 = l2 ∧ r1 = r2 := by
  induction l1 with
  | nil =>
    intro l2 r1 r2 _ h2 h
    cases l2 with
    | nil =>
      simp only [List.nil_append] at h
      exact ⟨rfl, List.tail_eq_of_cons_eq h⟩
    | cons b t =>
      simp only [List.nil_append, List.cons_append] at h
      have hb : b = '.' := (List.head_eq_of_cons_eq h).symm
      subst hb
      exact absurd (List.mem_cons_self _ _) h2
  | cons a s ih =>
    intro l2 r1 r2 h1 h2 h
    cases l2 with
    | nil =>
      simp only [List.nil_append, List.cons_append] at h
      have ha : a = '.' := List.head_eq_of_cons_eq h
      exact absurd (by rw [← ha]; exact List.mem_cons_self _ _) h1
    | cons b t =>
      simp only [List.cons_append] at h
      have hab : a = b := List.head_eq_of_cons_eq h
      have ht : s ++ '.' :: r1 = t ++ '.' :: r2 := List.tail_eq_of_cons_eq h
      obtain ⟨e1, e2⟩ := ih t r1 r2
        (fun hc => h1 (List.mem_cons_of_mem _ hc))
        (fun hc => h2 (List.mem_cons_of_mem _ hc)) ht
      exact ⟨by rw [hab, e1], e2⟩

lemma padMinor_digits_inj (s1 s2 : List Char)
    (hd1 : ∀ c ∈ s1, c.isDigit) (hd2 : ∀ c ∈ s2, c.isDigit)
    (hn1 : s1 ≠ []) (hn2 : s2 ≠ []) (h : padMinor s1 = padMinor s2) :
    s1 = s2 := by
  have hsp : (' ' : Char).isDigit = false := by decide
  have hlen1 : 1 ≤ s1.length := by
    cases hd : s1 with
    | nil => exact absurd hd hn1
    | cons a t => simp
  have hlen2 : 1 ≤ s2.length := by
    cases hd : s2 with
    | nil => exact absurd hd hn2
    | cons a t => simp
  unfold padMinor at h
  by_cases hb1 : 2 ≤ s1.length
  · by_cases hb2 : 2 ≤ s2.length
    · rw [show 2 - s1.length = 0 from by omega,
        show 2 - s2.length = 0 from by omega] at h
      simpa using h
    · have h2 : s2.length = 1 := by omega
      obtain ⟨a, ha⟩ := List.length_eq_one.mp h2
      rw [ha] at h
      rw [show 2 - s1.length = 0 from by omega] at h
      simp only [List.replicate, List.append_nil] at h
      have hsp2 : ' ' ∈ s1 := by
        rw [h]
        simp
      have := hd1 ' ' hsp2
      rw [hsp] at this
      cases this
  · have h1 : s1.length = 1 := by omega
    obtain ⟨a, ha⟩ := List.length_eq_one.mp h1
    by_cases hb2 : 2 ≤ s2.length
    · rw [ha] at h
      rw [show 2 - s2.length = 0 from by omega] at h
      simp only [List.replicate, List.append_nil] at h
      have hsp2 : ' ' ∈ s2 := by
        rw [← h]
        simp
      have := hd2 ' ' hsp2
      rw [hsp] at this
      cases this
    · have h2 : s2.length = 1 := by omega
      obtain ⟨b, hb⟩ := List.length_eq_one.mp h2
      rw [ha, hb] at h ⊢
      rw [ha] at h1
      rw [hb] at h2
      simp only [List.length_singleton] at h1 h2
      simp only [List.replicate, List.singleton_append, List.cons_append,
        List.append_nil] at h
      have := List.head_eq_of_cons_eq h
      rw [this]

lemma formatVersion_injective : Function.Injective formatVersion := by
  intro a b h
  unfold formatVersion at h
  have h' : natDigits a.1 ++ '.' :: padMinor (natDigits a.2) =
      natDigits b.1 ++ '.' :: padMinor (natDigits b.2) := by
    injection h
  obtain ⟨e1, e2⟩ := append_cons_dot_inj (natDigits a.1) (natDigits b.1) _ _
    (dot_not_mem_natDigits a.1) (dot_not_mem_natDigits b.1) h'
  have hm1 : a.1 = b.1 := natDigits_injective e1
  have hm2 : a.2 = b.2 := natDigits_injective
    (padMinor_digits_inj _ _ (natDigits_isDigit a.2) (natDigits_isDigit b.2)
      (natDigits_ne_nil a.2) (natDigits_ne_nil b.2) e2)
  exact Prod.ext hm1 hm2

/-- C9: in every computed table each data row has one cell per header column,
with the driver cells laid out in header order, and each kernel version
labels at most one data row. -/
theorem c9_row_invariants (d : VMap) :
    (∀ row ∈ (compute_table d).tail,
      row.length = ("Kernel" :: DRIVERS).length ∧
      ∃ v ∈ d.keys, row = formatVersion v :: parse_row d v) ∧
    ((compute_table d).tail.map (fun r => r.headD "")).Nodup := by
  have htail : (compute_table d).tail =
      (sortedKeysDesc d).map (fun v => formatVersion v :: parse_row d v) := rfl
  constructor
  · intro row hrow
    rw [htail] at hrow
    obtain ⟨v, hv, hveq⟩ := List.mem_map.mp hrow
    refine ⟨?_, v, ?_, hveq.symm⟩
    · rw [← hveq]
      simp [parse_row]
    · unfold sortedKeysDesc at hv
      rw [List.mem_reverse, Finset.mem_sort] at hv
      exact hv
  · rw [htail, List.map_map]
    have hcomp : ((fun r => List.headD r "") ∘
        fun v => formatVersion v :: parse_row d v) =
        fun v => formatVersion v := rfl
    rw [hcomp]
    exact (List.nodup_reverse.mpr (Finset.sort_nodup verLe d.keys)).map
      formatVersion_injective

lemma infix_ext_left (x l m : List Char) (h : l <:+: m) : l <:+: x ++ m := by
  obtain ⟨s, t, hst⟩ := h
  exact ⟨x ++ s, t, by rw [← hst]; simp [List.append_assoc]⟩

lemma infix_ext_right (y l m : List Char) (h : l <:+: m) : l <:+: m ++ y := by
  obtain ⟨s, t, hst⟩ := h
  exact ⟨s, t ++ y, by rw [← hst]; simp [List.append_assoc]⟩

lemma infix_catMap (f : α → List Char) (a : α) (l : List α) (h : a ∈ l) :
    f a <:+: catMap f l := by
  induction l with
  | nil => cases h
  | cons b t ih =>
    rcases List.mem_cons.mp h with heq | hmem
    · subst heq
      exact ⟨[], catMap f t, by simp [catMap]⟩
    · exact infix_ext_left (f b) _ _ (ih hmem)

lemma infix_padL (s : List Char) (w : Nat) : s <:+: padL s w :=
  ⟨[], List.replicate (w - s.length) ' ', by simp [padL]⟩

lemma infix_padR (s : List Char) (w : Nat) : s <:+: padR s w :=
  ⟨List.replicate (w - s.length) ' ', [], by simp [padR]⟩

lemma infix_padC (s : List Char) (w : Nat) : s <:+: padC s w :=
  ⟨List.replicate ((w - s.length) / 2) ' ',
   List.replicate ((w - s.length) - (w - s.length) / 2) ' ',
   by simp [padC]⟩

lemma infix_cellL (s : String) (w : Nat) : s.data <:+: cellL w s :=
  (infix_padL s.data w).trans
    ⟨['|', ' '], [' '], by simp [cellL]⟩

lemma infix_cellC (s : String) (w : Nat) : s.data <:+: cellC w s :=
  (infix_padC s.data w).trans
    ⟨['|', ' '], [' '], by simp [cellC]⟩

lemma infix_cellR (s : String) (w : Nat) : s.data <:+: cellR w s :=
  (infix_padR s.data w).trans
    ⟨['|', ' '], [' '], by simp [cellR]⟩

lemma padC_length (s : List Char) (w : Nat) :
    (padC s w).length = max w s.length := by
  simp only [padC, List.length_append, List.length_replicate]
  omega

lemma infix_rowEmit_head (w : Nat) (r : List String) :
    ((r.headD "").data) <:+: rowEmit w r :=
  ((infix_cellR (r.headD "") w).trans
    ⟨['\n'], catMap (cellC w) r.tail ++ ['|'], by simp [rowEmit]⟩)

lemma infix_rowEmit_mem (w : Nat) (r : List String) (cell : String)
    (h : cell ∈ r.tail) : cell.data <:+: rowEmit w r :=
  ((infix_cellC cell w).trans (infix_catMap (cellC w) cell r.tail h)).trans
    ⟨'\n' :: cellR w (r.headD ""), ['|'], by simp [rowEmit]⟩

lemma gmw_acc_le (row : List String) : ∀ acc : Nat,
    acc ≤ row.foldl
      (fun ans cell => if cell.length > ans then cell.length else ans) acc := by
  induction row with
  | nil => intro acc; exact Nat.le_refl acc
  | cons a t ih =>
    intro acc
    refine Nat.le_trans ?_ (ih _)
    dsimp only
    split <;> omega

lemma gmw_le (row : List String) : ∀ (acc : Nat), ∀ cell ∈ row,
    cell.length ≤ row.foldl
      (fun ans cell => if cell.length > ans then cell.length else ans) acc := by
  induction row with
  | nil =>
    intro acc cell hc
    cases hc
  | cons a t ih =>
    intro acc cell hc
    rcases List.mem_cons.mp hc with heq | hmem
    · subst heq
      refine Nat.le_trans ?_ (gmw_acc_le t _)
      dsimp only
      split <;> omega
    · exact ih _ cell hmem

lemma gmw_cases (row : List String) : ∀ acc : Nat,
    row.foldl (fun ans cell => if cell.length > ans then cell.length else ans)
        acc = acc ∨
      ∃ cell ∈ row, row.foldl
        (fun ans cell => if cell.length > ans then cell.length else ans) acc
        = cell.length := by
  induction row with
  | nil => intro acc; exact Or.inl rfl
  | cons a t ih =>
    intro acc
    dsimp only [List.foldl_cons]
    rcases ih (if a.length > acc then a.length else acc) with h | ⟨c, hc, h⟩
    · rw [h]
      split
      · exact Or.inr ⟨a, List.mem_cons_self _ _, rfl⟩
      · exact Or.inl rfl
    · exact Or.inr ⟨c, List.mem_cons_of_mem _ hc, h⟩

lemma get_max_width_le (row : List String) (cell : String) (h : cell ∈ row) :
    cell.length ≤ get_max_width row :=
  gmw_le row 0 cell h

lemma get_max_width_attained (row : List String) (hne : row ≠ []) :
    ∃ cell ∈ row, get_max_width row = cell.length := by
  cases row with
  | nil => exact absurd rfl hne
  | cons a t =>
    rcases gmw_cases (a :: t) 0 with h | h
    · refine ⟨a, List.mem_cons_self _ _, ?_⟩
      have ha := gmw_le (a :: t) 0 a (List.mem_cons_self _ _)
      show (a :: t).foldl
        (fun ans cell => if cell.length > ans then cell.length else ans) 0
        = a.length
      omega
    · exact h

/-- C6: for a table with a nonempty header and nonempty data rows,
`dump_markdown` succeeds; the single padding width is the maximum header cell
length (every header cell bounds it, some header cell attains it); centred
padding to that width leaves an over-long cell intact (`max` width); and
every cell of every row appears verbatim inside the output — nothing is
truncated. -/
theorem c6_dump_width (header : List String) (rows : List (List String))
    (h0 : header ≠ []) (h1 : ∀ r ∈ rows, r ≠ []) :
    ∃ out, dump_markdown (header :: rows) = some out ∧
      (∀ cell ∈ header, cell.length ≤ get_max_width header) ∧
      (∃ cell ∈ header, get_max_width header = cell.length) ∧
      (∀ s : String, (padC s.data (get_max_width header)).length =
        max (get_max_width header) s.length) ∧
      (∀ row ∈ header :: rows, ∀ cell ∈ row, cell.data <:+: out) := by
  cases header with
  | nil => exact absurd rfl h0
  | cons c0 hs =>
    have hall : rows.all (fun r => !r.isEmpty) = true := by
      rw [List.all_eq_true]
      intro r hr
      have := h1 r hr
      simp [List.isEmpty_iff, this]
    refine ⟨dumpBody (c0 :: hs) rows, ?_, ?_,
      get_max_width_attained _ h0, ?_, ?_⟩
    · show (if rows.all (fun r => !r.isEmpty) = true
          then some (dumpBody (c0 :: hs) rows) else none) = _
      rw [if_pos hall]
    · intro cell hc
      exact get_max_width_le _ cell hc
    · intro s
      exact padC_length s.data _
    · intro row hrow cell hcell
      rcases List.mem_cons.mp hrow with heq | hmem
      · subst heq
        rcases List.mem_cons.mp hcell with heq | hmem
        · subst heq
          refine infix_ext_right _ _ _ (infix_ext_right _ _ _
            (infix_ext_right _ _ _ (infix_ext_right _ _ _ ?_)))
          exact infix_cellL cell _
        · refine infix_ext_right _ _ _ (infix_ext_right _ _ _
            (infix_ext_right _ _ _ (infix_ext_left _ _ _ ?_)))
          exact (infix_cellC cell _).trans
            (infix_catMap (cellC (get_max_width (c0 :: hs))) cell hs hmem)
      · refine infix_ext_left _ _ _ ?_
        refine ((?_ : cell.data <:+: rowEmit (get_max_width (c0 :: hs))
          row)).trans (infix_catMap _ row rows hmem)
        obtain ⟨r0, rt, hr⟩ : ∃ r0 rt, row = r0 :: rt := by
          cases row with
          | nil => exact absurd rfl (h1 [] hmem)
          | cons a b => exact ⟨a, b, rfl⟩
        rcases List.mem_cons.mp (hr ▸ hcell) with heq | hmem2
        · subst heq
          have hh : (row.headD "") = cell := by rw [hr]; rfl
          rw [← hh]
          exact infix_rowEmit_head _ row
        · refine infix_rowEmit_mem _ row cell ?_
          rw [hr]
          exact hmem2

/-- Witness for C6 at the concrete two-column table of the spec example. -/
theorem c6_witness :
    ∃ out, dump_markdown ([["Kernel", "e100"], ["5.15", "X"]]) = some out ∧
      (∀ cell ∈ ["Kernel", "e100"],
        cell.length ≤ get_max_width ["Kernel", "e100"]) ∧
      (∃ cell ∈ ["Kernel", "e100"],
        get_max_width ["Kernel", "e100"] = cell.length) ∧
      (∀ s : String, (padC s.data (get_max_width ["Kernel", "e100"])).length =
        max (get_max_width ["Kernel", "e100"]) s.length) ∧
      (∀ row ∈ [["Kernel", "e100"], ["5.15", "X"]], ∀ cell ∈ row,
        cell.data <:+: out) :=
  c6_dump_width ["Kernel", "e100"] [["5.15", "X"]] (by decide)
    (by intro r hr
        simp only [List.mem_singleton] at hr
        subst hr
        decide)

lemma filter_versions_perm (f1 f2 : List (List Char)) (h : f1.Perm f2)
    (pfx ext : List Char) :
    filter_versions f1 pfx ext = filter_versions f2 pfx ext := by
  unfold filter_versions
  exact List.toFinset_eq_of_perm _ _ (List.Perm.filterMap _ h)

lemma scanEntries_congr (t1 t2 : DirTree)
    (hsub : ∀ s, ListingEq (t1.subFiles s) (t2.subFiles s))
    (f1 f2 : List (List Char)) (hf : f1.Perm f2) :
    ∀ (l : List Entry) (acc : VMap),
      scanEntries t1 f1 l acc = scanEntries t2 f2 l acc := by
  intro l
  induction l with
  | nil => intro acc; rfl
  | cons e rest ih =>
    intro acc
    unfold scanEntries
    by_cases he : e.1 = "."
    · rw [if_pos he, if_pos he, filter_versions_perm f1 f2 hf]
      exact ih _
    · rw [if_neg he, if_neg he]
      have hls := hsub e.1
      cases ht1 : t1.subFiles e.1 with
      | none =>
        cases ht2 : t2.subFiles e.1 with
        | none => rfl
        | some b =>
          rw [ht1, ht2] at hls
          exact False.elim hls
      | some a =>
        cases ht2 : t2.subFiles e.1 with
        | none =>
          rw [ht1, ht2] at hls
          exact False.elim hls
        | some b =>
          rw [ht1, ht2] at hls
          show scanEntries t1 f1 rest _ = scanEntries t2 f2 rest _
          rw [filter_versions_perm a b hls]
          exact ih _

lemma get_all_drivers_congr (t1 t2 : DirTree) (h : TreeEquiv t1 t2) :
    get_all_drivers t1 = get_all_drivers t2 := by
  obtain ⟨hroot, hsub⟩ := h
  unfold get_all_drivers
  cases h1 : t1.rootFiles with
  | none =>
    cases h2 : t2.rootFiles with
    | none => rfl
    | some f2 =>
      rw [h1, h2] at hroot
      exact False.elim hroot
  | some f1 =>
    cases h2 : t2.rootFiles with
    | none =>
      rw [h1, h2] at hroot
      exact False.elim hroot
    | some f2 =>
      rw [h1, h2] at hroot
      show scanEntries t1 f1 DRIVER_MAP emptyVMap =
        scanEntries t2 f2 DRIVER_MAP emptyVMap
      exact scanEntries_congr t1 t2 hsub f1 f2 hroot DRIVER_MAP emptyVMap

/-- C7: scanning the same unchanged directory tree twice — the two runs may
list each directory in different orders — produces the same dictionary and
hence cell-for-cell identical tables. -/
theorem c7_scan_deterministic (t1 t2 : DirTree) (h : TreeEquiv t1 t2) :
    Option.map compute_table (get_all_drivers t1) =
      Option.map compute_table (get_all_drivers t2) ∧
    get_all_drivers t1 = get_all_drivers t2 := by
  have heq := get_all_drivers_congr t1 t2 h
  exact ⟨by rw [heq], heq⟩

/-- Witness for C7: the concrete tree `wTreeE100` is equivalent to itself. -/
theorem c7_witness :
    Option.map compute_table (get_all_drivers wTreeE100) =
      Option.map compute_table (get_all_drivers wTreeE100) ∧
    get_all_drivers wTreeE100 = get_all_drivers wTreeE100 :=
  c7_scan_deterministic wTreeE100 wTreeE100
    ⟨List.Perm.refl _, fun s => List.Perm.refl _⟩

end DriverTable
